import Mathlib

/-!
Verification development for the TreePT repository (next_context.py,
nextjs_analyzer.py, openai_service.py).

The Python sources are shallowly embedded: every definition below mirrors a
function of the sources, with Python strings modelled by Lean `String`
(operations implemented over `String.toList` so that they evaluate inside the
kernel), Python lists by `List`, Python dicts by association lists that keep
insertion order, and network or LLM results by explicit input parameters.
The process-wide cancellation flag is modelled as an explicit boolean
parameter; in a run it is sampled as one constant value.
-/

namespace TreePT

/-! ## String primitives (Python semantics, evaluable) -/

/-- Python `s.startswith(pre)`. -/
def pyStartsWith (s pre : String) : Bool :=
  pre.toList.isPrefixOf s.toList

/-- Python `s.endswith(suf)`. -/
def pyEndsWith (s suf : String) : Bool :=
  suf.toList.isSuffixOf s.toList

/-- One step of Python `sub in s` substring search. -/
def charListInfix (sub : List Char) : List Char → Bool
  | [] => sub.isEmpty
  | c :: rest => sub.isPrefixOf (c :: rest) || charListInfix sub rest

/-- Python `sub in s` (substring containment). -/
def pyContains (s sub : String) : Bool :=
  charListInfix sub.toList s.toList

/-- Split a character list at every occurrence of `c` (Python `str.split(c)`). -/
def splitChar (c : Char) : List Char → List (List Char)
  | [] => [[]]
  | x :: xs =>
    if x = c then [] :: splitChar c xs
    else
      match splitChar c xs with
      | [] => [[x]]
      | l :: ls => (x :: l) :: ls

/-- Python `s.split(c)` for a one-character separator. -/
def pySplit (s : String) (c : Char) : List String :=
  (splitChar c s.toList).map fun l => String.mk l

/-- Strict lexicographic order on character lists (Python string `<`). -/
def charListLt : List Char → List Char → Bool
  | [], [] => false
  | [], _ :: _ => true
  | _ :: _, [] => false
  | a :: as, b :: bs =>
    if a < b then true else if b < a then false else charListLt as bs

/-- The whitespace characters matched by Python `\s` and stripped by `strip()`. -/
def pyWs (c : Char) : Bool :=
  c = ' ' || c = '\t' || c = '\n' || c = '\r' || c = '\x0b' || c = '\x0c'

/-- Python `not line.strip()`: the line consists of whitespace only. -/
def isBlankLine (s : String) : Bool :=
  s.toList.all pyWs

/-! ## Path handling (pathlib.PurePosixPath semantics)

`PurePosixPath` collapses repeated separators and single-dot components and
keeps `..` components; `parts` is the list of remaining components. -/

/-- The components of a POSIX relative path, as `PurePosixPath(p).parts`. -/
def pathComponents (p : String) : List String :=
  (pySplit p '/').filter fun c => decide (c ≠ "") && decide (c ≠ ".")

/-- Python `len(Path(p).parts)`, used as the sort key for path depth. -/
def depthKey (p : String) : Nat :=
  (pathComponents p).length

/-- Python `str(Path(p).parent)`: drop the last component, `"."` when empty. -/
def parentDir (p : String) : String :=
  let cs := pathComponents p
  if cs.length ≤ 1 then "." else String.intercalate "/" cs.dropLast

/-- Python `str(Path(d) / s)` for POSIX paths: an absolute right operand wins,
otherwise the component lists are joined; an empty result renders as `"."`. -/
def pathJoin (d s : String) : String :=
  if pyStartsWith s "/" then
    "/" ++ String.intercalate "/" (pathComponents s)
  else
    let cs := pathComponents d ++ pathComponents s
    if cs.isEmpty then "." else String.intercalate "/" cs

/-! ## Fixed tables of next_context.py -/

/-- `self.extensions` of `GitHubRepoAnalyzer.__init__`. -/
def extensions : List String :=
  [".js", ".jsx", ".ts", ".tsx", ".mjs", ".cjs"]

/-- `KEY_DIRECTORIES` of next_context.py. -/
def KEY_DIRECTORIES : List String :=
  ["src/", "app/", "pages/", "components/", "lib/", "utils/",
   "hooks/", "contexts/", "services/", "api/", "routes/", "modules/"]

/-- The excluded directory substrings of `get_relevant_repo_files`. -/
def excludedDirs : List String :=
  ["node_modules/", ".git/", ".next/", "out/", "build/", "dist/",
   "test/", "tests/", "__tests__/", "__mocks__/", ".storybook/",
   "e2e/", ".github/", "coverage/", "fixtures/", "cypress/"]

/-! ## File discovery: get_relevant_repo_files and _smart_sample_files -/

/-- An entry of the repository tree listing (`{"path": ..., "type": ...}`). -/
structure TreeItem where
  path : String
  type : String
deriving DecidableEq

/-- The filter condition of `get_relevant_repo_files`: a blob whose path ends
in a supported extension and avoids every excluded directory substring. -/
def isCodeFile (it : TreeItem) : Bool :=
  decide (it.type = "blob")
    && extensions.any (fun e => pyEndsWith it.path e)
    && !(excludedDirs.any fun d => pyContains it.path d)

/-- The `code_files` list built by `get_relevant_repo_files`. -/
def filterCodeFiles (tree : List TreeItem) : List String :=
  (tree.filter isCodeFile).map TreeItem.path

/-- Stable insertion placing `x` before the first element not strictly below
it; folding it gives exactly the result of Python's stable ascending sort. -/
def stableInsert (lt : String → String → Bool) (x : String) :
    List String → List String
  | [] => [x]
  | y :: ys => if lt y x then y :: stableInsert lt x ys else x :: y :: ys

/-- Python `list.sort(key=...)` as a stable sort by the strict order `lt`. -/
def pySortBy (lt : String → String → Bool) (l : List String) : List String :=
  l.foldr (stableInsert lt) []

/-- The sort key `lambda p: (len(Path(p).parts), p)` as a strict tuple order. -/
def depthPathLt (a b : String) : Bool :=
  decide (depthKey a < depthKey b)
    || (decide (depthKey a = depthKey b) && charListLt a.toList b.toList)

/-- One pass of the allocation `for` loop of `_smart_sample_files`: walk the
allocation/group-size pairs, increment where the group still has files, and
stop as soon as the running total reaches `key_allocation`.  `total` is the
sum of the full current allocation list. -/
def onePassGo (keyAlloc : Nat) : Nat → List (Nat × Nat) → List Nat
  | _, [] => []
  | total, (a, g) :: rest =>
    if a < g then
      if total + 1 ≥ keyAlloc then (a + 1) :: rest.map Prod.fst
      else (a + 1) :: onePassGo keyAlloc (total + 1) rest
    else a :: onePassGo keyAlloc total rest

/-- The `while` loop of `_smart_sample_files`.  Each iteration that runs the
inner pass strictly increases the allocation sum, and the loop only continues
while that sum is below `key_allocation`, so `key_allocation + 1` units of
fuel are always enough; the fuel never runs out on the loop's own schedule. -/
def adjustAllocations (keyAlloc : Nat) (sizes : List Nat) :
    List Nat → Nat → List Nat
  | allocs, 0 => allocs
  | allocs, fuel + 1 =>
    if allocs.sum < keyAlloc ∧ (allocs.zip sizes).any (fun p => p.1 < p.2) then
      adjustAllocations keyAlloc sizes
        (onePassGo keyAlloc allocs.sum (allocs.zip sizes)) fuel
    else allocs

/-- `_smart_sample_files`.  The two float expressions of the source
(`int(max_files * 0.8)` and `int(key_allocation * (size / total_size))`) are
rendered with integer division, which agrees with the float computation on
the integer ranges that occur here; no theorem below depends on the exact
allocation numbers. -/
def smartSample (codeFiles : List String) (maxFiles : Nat) : List String :=
  let keyDirFiles0 :=
    codeFiles.filter fun f => KEY_DIRECTORIES.any fun d => pyStartsWith f d
  let otherFiles :=
    codeFiles.filter fun f => !(KEY_DIRECTORIES.any fun d => pyStartsWith f d)
  let keyDirFiles := pySortBy depthPathLt keyDirFiles0
  let jsFiles := keyDirFiles.filter fun f => pyEndsWith f ".js"
  let jsxFiles := keyDirFiles.filter fun f => pyEndsWith f ".jsx"
  let tsFiles := keyDirFiles.filter fun f => pyEndsWith f ".ts"
  let tsxFiles := keyDirFiles.filter fun f => pyEndsWith f ".tsx"
  let otherExtFiles := keyDirFiles.filter fun f =>
    !([".js", ".jsx", ".ts", ".tsx"].any fun e => pyEndsWith f e)
  let totalKeyFiles := keyDirFiles.length
  let totalOtherFiles := otherFiles.length
  let keyAllocation := min ((4 * maxFiles) / 5) totalKeyFiles
  let otherAllocation := min (maxFiles - keyAllocation) totalOtherFiles
  let otherAllocation :=
    if 2 * keyAllocation < totalKeyFiles then
      min (maxFiles - keyAllocation) totalOtherFiles
    else otherAllocation
  let fileGroups0 := [jsFiles, jsxFiles, tsFiles, tsxFiles, otherExtFiles]
  let totalSize := (fileGroups0.map List.length).sum
  let fileGroups := fileGroups0.filter fun g => !g.isEmpty
  let selected :=
    if totalSize > 0 then
      let allocations0 := (fileGroups.map List.length).map fun size =>
        max 1 ((keyAllocation * size) / totalSize)
      let allocations :=
        adjustAllocations keyAllocation (fileGroups.map List.length)
          allocations0 (keyAllocation + 1)
      ((fileGroups.zip allocations).map fun gp => gp.1.take gp.2).flatten
    else []
  (selected ++ otherFiles.take otherAllocation).take maxFiles

/-- `get_relevant_repo_files` over an already fetched tree listing
(`max_files` defaults to 300 at the call sites). -/
def getRelevantRepoFiles (tree : List TreeItem) (maxFiles : Nat) : List String :=
  let codeFiles := filterCodeFiles tree
  if codeFiles.length > maxFiles then smartSample codeFiles maxFiles
  else codeFiles

/-! ## Association lists (Python dict with insertion order) -/

/-- Lookup in an insertion-ordered association list. -/
def alistLookup {α : Type} : List (String × α) → String → Option α
  | [], _ => none
  | e :: rest, k => if e.1 = k then some e.2 else alistLookup rest k

/-- Update in an insertion-ordered association list: overwrite the first
binding in place, append a new binding at the end (Python dict assignment). -/
def alistUpdate {α : Type} : List (String × α) → String → α → List (String × α)
  | [], k, v => [(k, v)]
  | e :: rest, k, v =>
    if e.1 = k then (k, v) :: rest else e :: alistUpdate rest k v

/-! ## The dependency-graph builder of AIIssueAnalyzer.build_file_structure -/

/-- One entry of a file's `imports` list (`{"type", "path", "resolved"}`).
The builder only ever appends entries with type `"internal"`. -/
structure ImportEntry where
  type : String
  path : String
  resolved : String
deriving DecidableEq

/-- One value of `relevant_file_structure`. -/
structure FileData where
  path : String
  relevant_content : String
  imports : List ImportEntry
  imported_by : List String
deriving DecidableEq

/-- The per-import body of the resolution loop in `process_file`: external
and absolute imports fall through with nothing recorded, while an import
starting with `.` is joined against the directory of the current file and the
first extension candidate found in `relevant_files` becomes an internal
edge. -/
def resolveImport (relevantFiles : List String) (filePath s : String) :
    Option ImportEntry :=
  if pyStartsWith s "." || pyStartsWith s "/" then
    if pyStartsWith s "." then
      let base := pathJoin (parentDir filePath) s
      match extensions.find? (fun e => decide ((base ++ e) ∈ relevantFiles)) with
      | some e => some ⟨"internal", s, base ++ e⟩
      | none => none
    else none
  else none

/-- Python `set.add` on a list model that keeps first-insertion order. -/
def insertOnce (l : List String) (x : String) : List String :=
  if x ∈ l then l else l ++ [x]

/-- One iteration of the import loop of `process_file`: a successful
resolution appends the entry and adds the resolved target to the
dependency set; anything else leaves the accumulator unchanged. -/
def impStep (relevantFiles : List String) (filePath : String)
    (acc : List ImportEntry × List String) (s : String) :
    List ImportEntry × List String :=
  match resolveImport relevantFiles filePath s with
  | some entry => (acc.1 ++ [entry], insertOnce acc.2 entry.resolved)
  | none => acc

/-- The import loop of `process_file`: accumulate the `imports` entries and
the `dependencies[file_path]` set side by side. -/
def processImports (relevantFiles : List String) (filePath : String)
    (imps : List String) :
    List ImportEntry × List String :=
  imps.foldl (impStep relevantFiles filePath) ([], [])

/-- `process_file`: returns the file's structure entry (or `none`) together
with its contribution to the shared `dependencies` dict.  `content` stands
for `get_file_content_async` (an empty string is falsy in Python and is
treated like a missing file), `extract` for `extract_imports` over the
fetched text, and `relCode` for the `extract_relevant_code` result. -/
def processFile (relevantFiles : List String) (content : String → Option String)
    (extract : String → List String) (relCode : String → String)
    (cancelled : Bool) (f : String) : Option FileData × List String :=
  if cancelled then (none, [])
  else
    match content f with
    | none => (none, [])
    | some c =>
      if c = "" then (none, [])
      else
        let r := processImports relevantFiles f (extract c)
        (some ⟨f, relCode f, r.1, []⟩, r.2)

/-- Merge one file's resolved-target set into the `dependencies` dict
(`defaultdict(set)`): a file becomes a key only when it resolved at least one
internal import. -/
def depsUpdate (dp : List (String × List String)) (f : String)
    (ds : List String) : List (String × List String) :=
  if ds.isEmpty then dp
  else
    match alistLookup dp f with
    | some s => alistUpdate dp f (ds.foldl insertOnce s)
    | none => alistUpdate dp f (ds.foldl insertOnce [])

/-- The guarded append of the back-reference pass: add `importer` to the
`imported_by` list of the entry keyed `target`, skipping duplicates. -/
def byAdd (importer target k : String) (d : FileData) : FileData :=
  if k = target then
    if importer ∈ d.imported_by then d
    else { d with imported_by := d.imported_by ++ [importer] }
  else d

/-- One step of the back-reference pass over the whole structure; a missing
`target` key leaves the structure unchanged. -/
def addImportedBy (st : List (String × FileData)) (importer target : String) :
    List (String × FileData) :=
  st.map fun e => (e.1, byAdd importer target e.1 e.2)

/-- The `imported_by` finalization loop of `build_file_structure`. -/
def finalize (st : List (String × FileData))
    (deps : List (String × List String)) : List (String × FileData) :=
  deps.foldl (fun s fd => fd.2.foldl (fun s2 b => addImportedBy s2 fd.1 b) s) st

/-- The accumulation of `relevant_file_structure` from the gathered
`process_file` results, in submission order; a `None` result is skipped. -/
def structFold (relevantFiles : List String) (content : String → Option String)
    (extract : String → List String) (relCode : String → String)
    (cancelled : Bool) : List String → List (String × FileData) →
    List (String × FileData)
  | [], st => st
  | f :: fs, st =>
    structFold relevantFiles content extract relCode cancelled fs
      (match (processFile relevantFiles content extract relCode cancelled f).1 with
       | some d => alistUpdate st f d
       | none => st)

/-- The accumulation of the shared `dependencies` dict from the same
results (`process_file` is pure, so replaying it per file equals reading
the gathered results). -/
def depsFold (relevantFiles : List String) (content : String → Option String)
    (extract : String → List String) (relCode : String → String)
    (cancelled : Bool) : List String → List (String × List String) →
    List (String × List String)
  | [], dp => dp
  | f :: fs, dp =>
    depsFold relevantFiles content extract relCode cancelled fs
      (depsUpdate dp f
        (processFile relevantFiles content extract relCode cancelled f).2)

/-- `build_file_structure`: process every relevant file, collect the
structure dict and the dependencies dict, then populate `imported_by`. -/
def buildFileStructure (relevantFiles : List String)
    (content : String → Option String) (extract : String → List String)
    (relCode : String → String) (cancelled : Bool) :
    List (String × FileData) :=
  if cancelled then []
  else
    finalize
      (structFold relevantFiles content extract relCode cancelled
        relevantFiles [])
      (depsFold relevantFiles content extract relCode cancelled
        relevantFiles [])

/-! ## identify_relevant_files and its fallback -/

/-- The outcome of the chat-completion call of `identify_relevant_files`:
a raised exception, a response whose content did not parse as JSON, or a
parsed JSON array of paths. -/
inductive ApiOutcome where
  | failure
  | parseFailed
  | parsed (files : List String)
deriving DecidableEq

/-- Modelled from the spec: `_prefilter_files_by_keywords` is called by
`_fallback_relevant_files` (next_context.py line 724) but is not defined in
the analyzed sources; following the spec's description of the keyword
shortlist, it returns the files matching any issue keyword, bounded by the
given limit, so the shortlist is always drawn from `allFiles`. -/
def prefilterFilesByKeywords (keywords : List String) (allFiles : List String)
    (limit : Nat) : List String :=
  (allFiles.filter fun p => keywords.any fun k => pyContains p k).take limit

/-- `_fallback_relevant_files`: keyword matches, key directories first,
sorted by path depth, truncated to `max_files`. -/
def fallbackRelevantFiles (keywords : List String) (allFiles : List String)
    (maxFiles : Nat) : List String :=
  let keywordMatches := prefilterFilesByKeywords keywords allFiles (maxFiles * 2)
  let keyDirFiles0 :=
    keywordMatches.filter fun f => KEY_DIRECTORIES.any fun d => pyStartsWith f d
  let otherFiles :=
    keywordMatches.filter fun f => !(KEY_DIRECTORIES.any fun d => pyStartsWith f d)
  let keyDirFiles := pySortBy depthPathLt keyDirFiles0
  (keyDirFiles ++ otherFiles).take maxFiles

/-- `identify_relevant_files`: validate the model's answer against the known
file list, fall back on an empty validation result, a parse error or an API
error, and truncate to `max_files`.  The embedding prefilter only shapes the
prompt, so it does not appear here. -/
def identifyRelevantFilesCore (keywords : List String) (cancelled : Bool)
    (allFiles : List String) (maxFiles : Nat) (api : ApiOutcome) :
    List String :=
  if cancelled then []
  else
    match api with
    | .failure => fallbackRelevantFiles keywords allFiles maxFiles
    | .parseFailed => fallbackRelevantFiles keywords allFiles maxFiles
    | .parsed resp =>
      let validated := resp.filter fun p => decide (p ∈ allFiles)
      if validated.isEmpty then
        (fallbackRelevantFiles keywords allFiles maxFiles).take maxFiles
      else validated.take maxFiles

/-! ## The outbound-call trace of analyze_issue -/

/-- One outbound network interaction of the analysis. -/
inductive NetEvent where
  | treeRequest
  | rawFetch (path : String)
  | openaiCall
deriving DecidableEq

/-- The network calls issued by `identify_relevant_files`: nothing once the
flag is set; otherwise the embedding prefilter (collapsed to one event, only
for repositories above 1000 candidate files) and the chat completion. -/
def identifyRelevantFilesEvents (cancelled : Bool) (allFiles : List String) :
    List NetEvent :=
  if cancelled then []
  else (if allFiles.length > 1000 then [.openaiCall] else []) ++ [.openaiCall]

/-- The network calls issued for one file by `process_file`: the raw-content
fetch, then the chat completion of `extract_relevant_code` (whose own
content fetch is served by the cache).  Nothing once the flag is set. -/
def processFileEvents (content : String → Option String) (cancelled : Bool)
    (f : String) : List NetEvent :=
  if cancelled then []
  else
    NetEvent.rawFetch f ::
      (match content f with
       | none => []
       | some c => if c = "" then [] else [NetEvent.openaiCall])

/-- The network calls issued by `build_file_structure`. -/
def buildFileStructureEvents (relevantFiles : List String)
    (content : String → Option String) (cancelled : Bool) : List NetEvent :=
  if cancelled then []
  else (relevantFiles.map (processFileEvents content cancelled)).flatten

/-- The result document of `analyze_issue` (`project` block flattened); the
shape is the same whether or not the run was cancelled — it carries no
cancellation marker. -/
structure IssueGraph where
  projectPath : String
  issue : String
  relevantFiles : List (String × FileData)
  totalRelevantFiles : Nat
deriving DecidableEq

/-- `analyze_issue` together with its outbound-call trace, for one sampled
value of the cancellation flag.  The repository tree fetch of
`get_relevant_repo_files` (which performs no cancellation check) is modelled
as a single `treeRequest` for the complete-tree case; `300` is the default
`max_files` of `get_relevant_repo_files` at this call site. -/
def analyzeIssueModel (cancelled : Bool) (repoUrl issueText : String)
    (tree : List TreeItem) (maxFiles : Nat) (keywords : List String)
    (api : ApiOutcome) (content : String → Option String)
    (extract : String → List String) (relCode : String → String) :
    List NetEvent × IssueGraph :=
  let allFiles := getRelevantRepoFiles tree 300
  let e1 : List NetEvent := [NetEvent.treeRequest]
  let e2 := identifyRelevantFilesEvents cancelled allFiles
  let relevant := identifyRelevantFilesCore keywords cancelled allFiles maxFiles api
  if relevant.isEmpty then
    (e1 ++ e2, ⟨repoUrl, issueText, [], 0⟩)
  else
    let e3 := buildFileStructureEvents relevant content cancelled
    (e1 ++ e2 ++ e3,
      ⟨repoUrl, issueText,
        buildFileStructure relevant content extract relCode cancelled,
        relevant.length⟩)

/-! ## The import-section excerpting of extract_relevant_code -/

/-- Tail of the regex between the dot-plus and the end — backslash-s plus,
the literal `from`, backslash-s plus, then a quote character — anchored at
the head of the list: one whitespace character, any further whitespace, the
literal `from`, one or more whitespace characters, then a quote. -/
def fromAt (l : List Char) : Bool :=
  match l with
  | c :: rest =>
    pyWs c &&
      (match rest.dropWhile pyWs with
       | 'f' :: 'r' :: 'o' :: 'm' :: rest2 =>
         (match rest2 with
          | d :: rest3 =>
            pyWs d &&
              (match rest3.dropWhile pyWs with
               | q :: _ => q = '\x27' || q = '\x22'
               | [] => false)
          | [] => false)
       | _ => false)
  | [] => false

/-- The backtracking search for the rest of the ES-import regex: the
dot-plus consumes at least one character (whitespace included), then the
tail pattern matches. -/
def scanFrom : List Char → Bool
  | [] => false
  | _ :: rest => fromAt rest || scanFrom rest

/-- The anchored ES-import line regex of `_extract_imports_section` — the
literal `import`, backslash-s plus, dot-plus, backslash-s plus, `from`,
backslash-s plus, a quote — as a boolean matcher over the characters of
the line. -/
def isImportLine (l : List Char) : Bool :=
  match l with
  | 'i' :: 'm' :: 'p' :: 'o' :: 'r' :: 't' :: c :: rest => pyWs c && scanFrom rest
  | _ => false

/-- Tail of the require regex — backslash-s plus, an equals sign,
backslash-s plus, the literal `require(`, a quote — anchored at the head. -/
def eqRequireAt (l : List Char) : Bool :=
  match l with
  | c :: rest =>
    pyWs c &&
      (match rest.dropWhile pyWs with
       | '=' :: rest2 =>
         (match rest2 with
          | d :: rest3 =>
            pyWs d &&
              (match rest3.dropWhile pyWs with
               | 'r' :: 'e' :: 'q' :: 'u' :: 'i' :: 'r' :: 'e' :: '(' :: q :: _ =>
                 q = '\x27' || q = '\x22'
               | _ => false)
          | [] => false)
       | _ => false)
  | [] => false

/-- The backtracking search for the rest of the require regex. -/
def scanRequire : List Char → Bool
  | [] => false
  | _ :: rest => eqRequireAt rest || scanRequire rest

/-- The anchored CommonJS require line regex of `_extract_imports_section`:
the literal `const`, backslash-s plus, dot-plus, then the require tail. -/
def isRequireLine (l : List Char) : Bool :=
  match l with
  | 'c' :: 'o' :: 'n' :: 's' :: 't' :: c :: rest => pyWs c && scanRequire rest
  | _ => false

/-- The line test of `_extract_imports_section`: either regex matches. -/
def isImportStmt (s : String) : Bool :=
  isImportLine s.toList || isRequireLine s.toList

/-- Python `content.split('\n')`. -/
def splitLines (c : String) : List String :=
  pySplit c '\n'

/-- The line loop of `_extract_imports_section`: collect matching lines,
keep blank lines once collection has begun, stop at the first other line
after collection has begun. -/
def importsLoop : List String → List String → List String
  | [], acc => acc
  | line :: rest, acc =>
    if isImportStmt line = true then importsLoop rest (acc ++ [line])
    else if acc ≠ [] ∧ isBlankLine line = true then importsLoop rest (acc ++ [line])
    else if acc ≠ [] then acc
    else importsLoop rest acc

/-- `_extract_imports_section`. -/
def extractImportsSection (content : String) : String :=
  String.intercalate "\n" (importsLoop (splitLines content) [])

/-- The shared fallback of `extract_relevant_code`: the first 20 lines, with
an elision marker when the file is longer. -/
def firstTwentyLines (content : String) : String :=
  let ls := splitLines content
  String.intercalate "\n" (ls.take 20) ++
    (if ls.length > 20 then "\n// ... rest of file omitted" else "")

/-- `extract_relevant_code` for one sampled flag value: `content` is the
(cached) fetch result, `aiBlocks` the code blocks found in the chat
response (`none` for a raised exception, `some []` for a response without
code blocks).  A missing or empty (falsy) content yields the empty string;
every other outcome is prefixed by the imports section. -/
def extractRelevantCode (cancelled : Bool) (content : Option String)
    (aiBlocks : Option (List String)) : String :=
  if cancelled then ""
  else
    match content with
    | none => ""
    | some c =>
      if c = "" then ""
      else
        let sec := extractImportsSection c
        match aiBlocks with
        | some blocks =>
          if blocks ≠ [] then
            sec ++ "\n\n" ++ String.intercalate "\n\n" blocks
          else sec ++ "\n\n" ++ firstTwentyLines c
        | none => sec ++ "\n\n" ++ firstTwentyLines c

/-! ## Per-file I/O failure handling -/

/-- The outcome of one HTTP attempt of `get_file_content`. -/
inductive FetchOutcome where
  | ok (text : String)
  | notFound
  | rateLimited
  | netError
deriving DecidableEq

/-- `get_file_content` over the outcomes of its successive attempts: a 404
and a non-429 request error both yield `None`; a 429 waits and retries. -/
def getFileContent : List FetchOutcome → Option String
  | [] => none
  | FetchOutcome.ok t :: _ => some t
  | FetchOutcome.notFound :: _ => none
  | FetchOutcome.netError :: _ => none
  | FetchOutcome.rateLimited :: rest => getFileContent rest

/-- `extract_imports` with the three regex `findall` passes abstracted as
parameters: missing content yields the empty list before any pattern runs. -/
def extractImports (es6 dyn req : String → List String) :
    Option String → List String
  | none => []
  | some c => es6 c ++ dyn c ++ req c

/-- The extension gate of nextjs_analyzer's `extract_file_details`. -/
def analyzerExtensions : List String :=
  [".js", ".jsx", ".ts", ".tsx"]

/-- nextjs_analyzer's `extract_file_details` with the file read modelled as
an `Except` and the regex analysis of the text abstracted as `analyze`: any
per-file read or analysis error is caught and yields `none` for that file
alone. -/
def extractFileDetails {α : Type} (analyze : String → α) (filePath : String)
    (readResult : Except String String) : Option α :=
  if ¬ analyzerExtensions.any (fun e => pyEndsWith filePath e) then none
  else
    match readResult with
    | Except.error _ => none
    | Except.ok content => some (analyze content)

/-! ## Directory exploration (explore_repository) -/

/-- One entry of a `/contents/` listing. -/
inductive RItem where
  | file (path : String)
  | dir (path : String)
deriving DecidableEq

/-- A `/contents/` response: a single non-list object or a list. -/
inductive RContents where
  | single (item : RItem)
  | multi (items : List RItem)
deriving DecidableEq

/-- A repository modelled as the finite table of its directory listings;
paths outside the table answer like a missing resource (`None`). -/
abbrev RepoListing := List (String × RContents)

/-- Python `len(path.split('/'))`, the depth guard of `explore_repository`. -/
def pyDepth (p : String) : Nat :=
  (pySplit p '/').length

/-- The sequential traversal of the directories listed in one response,
threading the shared visited set (the thread pool of the source shares one
mutable set; the model serializes the futures in submission order). -/
def exploreFold (step : String → List String → List String × List String) :
    List String → List String → List String × List String
  | [], v => ([], v)
  | d :: ds, v =>
    let r1 := step d v
    let r2 := exploreFold step ds r1.2
    (r1.1 ++ r2.1, r2.2)

/-- `explore_repository`, fuel-indexed: the visited-set and depth guards
return the empty list at once; otherwise the path is marked visited, its
listing is fetched, files are collected and subdirectories explored.  The
`0` fuel case is never taken when the fuel exceeds the number of unvisited
table keys (proved below). -/
def exploreRepo (repo : RepoListing) (maxDepth : Nat) :
    Nat → String → List String → List String × List String
  | 0, _, visited => ([], visited)
  | fuel + 1, path, visited =>
    if path ∈ visited ∨ pyDepth path > maxDepth then ([], visited)
    else
      let visited1 := path :: visited
      match alistLookup repo path with
      | none => ([], visited1)
      | some (RContents.single item) =>
        ((match item with
          | RItem.file p => [p]
          | RItem.dir _ => []), visited1)
      | some (RContents.multi items) =>
        let files := items.filterMap fun it =>
          match it with
          | RItem.file p => some p
          | RItem.dir _ => none
        let dirs := items.filterMap fun it =>
          match it with
          | RItem.dir p => some p
          | RItem.file _ => none
        let r := exploreFold (fun d v => exploreRepo repo maxDepth fuel d v)
          dirs visited1
        (files ++ r.1, r.2)

/-- The number of table keys not yet visited: the quantity that shrinks at
every non-trivial recursive step of `exploreRepo`. -/
def unvisitedCount (repo : RepoListing) (visited : List String) : Nat :=
  ((repo.map Prod.fst).filter fun k => decide (k ∉ visited)).length

/-! ## Basic lemmas for sampling -/

theorem mem_stableInsert {lt x l a} :
    a ∈ stableInsert lt x l → a = x ∨ a ∈ l := by
  induction l with
  | nil => intro h; simp [stableInsert] at h; exact Or.inl h
  | cons y ys ih =>
    intro h
    simp only [stableInsert] at h
    by_cases hlt : lt y x = true
    · simp [hlt] at h
      rcases h with h | h
      · exact Or.inr (by simp [h])
      · rcases ih h with h1 | h1
        · exact Or.inl h1
        · exact Or.inr (by simp [h1])
    · simp [hlt] at h
      rcases h with h | h | h
      · exact Or.inl h
      · exact Or.inr (by simp [h])
      · exact Or.inr (by simp [h])

theorem mem_pySortBy {lt l a} : a ∈ pySortBy lt l → a ∈ l := by
  induction l with
  | nil => intro h; simp [pySortBy] at h
  | cons y ys ih =>
    intro h
    simp only [pySortBy, List.foldr] at h
    rcases mem_stableInsert h with h1 | h1
    · simp [h1]
    · exact List.mem_cons_of_mem _ (ih h1)

theorem mem_of_mem_sorted_group {codeFiles : List String}
    {q pred : String → Bool} {p : String} :
    p ∈ (pySortBy depthPathLt (codeFiles.filter q)).filter pred →
    p ∈ codeFiles := by
  intro h
  exact (List.mem_filter.mp (mem_pySortBy (List.mem_filter.mp h).1)).1

theorem smartSample_subset {codeFiles : List String} {maxFiles : Nat}
    {p : String} :
    p ∈ smartSample codeFiles maxFiles → p ∈ codeFiles := by
  intro hp
  simp only [smartSample] at hp
  have hp2 := List.take_subset _ _ hp
  rcases List.mem_append.mp hp2 with hsel | hother
  · split at hsel
    · rw [List.mem_flatten] at hsel
      obtain ⟨l, hl, hpl⟩ := hsel
      rw [List.mem_map] at hl
      obtain ⟨gp, hgp, rfl⟩ := hl
      have hg : gp.1 ∈ _ := (List.of_mem_zip hgp).1
      have hpg : p ∈ gp.1 := List.take_subset _ _ hpl
      have hg0 := (List.mem_filter.mp hg).1
      simp only [List.mem_cons, List.not_mem_nil, or_false] at hg0
      rcases hg0 with h5 | h5 | h5 | h5 | h5 <;>
        · rw [h5] at hpg
          exact mem_of_mem_sorted_group hpg
    · simp at hsel
  · have := List.take_subset _ _ hother
    exact (List.mem_filter.mp this).1

/-- Claim C10: smart sampling is a bounded selection: for every input list
of code files and every `max_files` bound, the returned list has at most
`max_files` entries and every returned path is an element of the input
list. -/
theorem smart_sample_bounded_subset (codeFiles : List String) (maxFiles : Nat) :
    (smartSample codeFiles maxFiles).length ≤ maxFiles ∧
    ∀ p ∈ smartSample codeFiles maxFiles, p ∈ codeFiles := by
  constructor
  · simp only [smartSample]
    exact List.length_take_le _ _
  · intro p hp
    exact smartSample_subset hp

/-- Witness for C10 at a concrete input: the sample of
`["src/a.js", "b.js"]` bounded by 1 is short enough, and its member
`"src/a.js"` is indeed drawn from the input list. -/
theorem smart_sample_bounded_subset_witness :
    (smartSample ["src/a.js", "b.js"] 1).length ≤ 1 ∧
    "src/a.js" ∈ ["src/a.js", "b.js"] :=
  ⟨(smart_sample_bounded_subset ["src/a.js", "b.js"] 1).1,
   (smart_sample_bounded_subset ["src/a.js", "b.js"] 1).2 "src/a.js" (by decide)⟩

/-- Claim C6 counterexample: with two matching blobs and `max_files = 1`,
`get_relevant_repo_files` does not return exactly the filtered entries —
smart sampling drops one of them. -/
theorem discovery_not_exact_cex :
    getRelevantRepoFiles [⟨"a.js", "blob"⟩, ⟨"b.js", "blob"⟩] 1 ≠
      filterCodeFiles [⟨"a.js", "blob"⟩, ⟨"b.js", "blob"⟩] := by
  decide

/-- Claim C6 (amended): when at most `max_files` entries pass the filter,
file discovery returns exactly the blob entries with a supported extension
and no excluded directory substring, in tree order; in every case each
returned path is one of those filtered entries, so it ends in a supported
extension and no entry containing an excluded directory name ever appears. -/
theorem discovery_filter_behavior (tree : List TreeItem) (maxFiles : Nat) :
    ((filterCodeFiles tree).length ≤ maxFiles →
      getRelevantRepoFiles tree maxFiles = filterCodeFiles tree) ∧
    ∀ p ∈ getRelevantRepoFiles tree maxFiles,
      p ∈ filterCodeFiles tree ∧
        (extensions.any fun e => pyEndsWith p e) = true ∧
        (excludedDirs.any fun d => pyContains p d) = false := by
  constructor
  · intro hle
    simp only [getRelevantRepoFiles]
    rw [if_neg (by omega)]
  · intro p hp
    have hmem : p ∈ filterCodeFiles tree := by
      simp only [getRelevantRepoFiles] at hp
      by_cases h : (filterCodeFiles tree).length > maxFiles
      · rw [if_pos h] at hp
        exact smartSample_subset hp
      · rwa [if_neg h] at hp
    refine ⟨hmem, ?_⟩
    simp only [filterCodeFiles, List.mem_map] at hmem
    obtain ⟨it, hit, rfl⟩ := hmem
    have hcode := (List.mem_filter.mp hit).2
    simp only [isCodeFile, Bool.and_eq_true, Bool.not_eq_true'] at hcode
    exact ⟨hcode.1.2, hcode.2⟩

/-- Witness for C6 (amended) at a concrete input: a two-blob tree under the
bound is returned exactly, and its entry `"a.js"` passes the filter. -/
theorem discovery_filter_behavior_witness :
    getRelevantRepoFiles [⟨"a.js", "blob"⟩, ⟨"b.js", "blob"⟩] 5 =
      filterCodeFiles [⟨"a.js", "blob"⟩, ⟨"b.js", "blob"⟩] ∧
    "a.js" ∈ filterCodeFiles [⟨"a.js", "blob"⟩, ⟨"b.js", "blob"⟩] :=
  ⟨(discovery_filter_behavior [⟨"a.js", "blob"⟩, ⟨"b.js", "blob"⟩] 5).1
      (by decide),
   ((discovery_filter_behavior [⟨"a.js", "blob"⟩, ⟨"b.js", "blob"⟩] 5).2
      "a.js" (by decide)).1⟩

/-! ## Lemmas for the import resolver -/

theorem find?_decomp {α : Type} (p : α → Bool) :
    ∀ (l : List α) (a : α), l.find? p = some a →
      p a = true ∧
        ∃ pre post, l = pre ++ a :: post ∧ ∀ b ∈ pre, p b = false := by
  intro l
  induction l with
  | nil => intro a h; simp [List.find?] at h
  | cons x xs ih =>
    intro a h
    cases hpx : p x with
    | true =>
      rw [List.find?_cons_of_pos _ hpx] at h
      cases h
      exact ⟨hpx, [], xs, rfl, by simp⟩
    | false =>
      rw [List.find?_cons_of_neg _ (by simp [hpx])] at h
      obtain ⟨hpa, pre, post, heq, hpre⟩ := ih a h
      refine ⟨hpa, x :: pre, post, by rw [heq, List.cons_append], ?_⟩
      intro b hb
      rcases List.mem_cons.mp hb with rfl | hb2
      · exact hpx
      · exact hpre b hb2

theorem impStep_none {rf : List String} {fp s : String}
    (acc : List ImportEntry × List String)
    (h : resolveImport rf fp s = none) : impStep rf fp acc s = acc := by
  simp [impStep, h]

theorem impStep_some {rf : List String} {fp s : String}
    (acc : List ImportEntry × List String) {entry : ImportEntry}
    (h : resolveImport rf fp s = some entry) :
    impStep rf fp acc s = (acc.1 ++ [entry], insertOnce acc.2 entry.resolved) := by
  simp [impStep, h]

theorem processImports_fold_fst (rf : List String) (fp : String) :
    ∀ (imps : List String) (acc : List ImportEntry × List String),
      (imps.foldl (impStep rf fp) acc).1 =
        acc.1 ++ imps.filterMap (resolveImport rf fp) := by
  intro imps
  induction imps with
  | nil => intro acc; simp
  | cons s rest ih =>
    intro acc
    simp only [List.foldl_cons, List.filterMap_cons]
    cases hres : resolveImport rf fp s with
    | none => rw [impStep_none acc hres]; simp [ih]
    | some entry => rw [impStep_some acc hres]; simp [ih]

theorem processImports_fst (rf : List String) (fp : String)
    (imps : List String) :
    (processImports rf fp imps).1 = imps.filterMap (resolveImport rf fp) := by
  simpa [processImports] using processImports_fold_fst rf fp imps ([], [])

/-- Claim C2: for a processed file `f` with fetched content `c` and an
extracted import string `s` starting with `.`, the builder records exactly
the resolver's outputs as the file's imports, and the resolver joins `s`
against the directory of `f`, then takes the first extension in the fixed
order whose candidate is among the known files, recording it as an internal
edge; when no candidate matches, nothing is recorded. -/
theorem relative_import_resolution
    (relevantFiles : List String) (content : String → Option String)
    (extract : String → List String) (relCode : String → String)
    (f c s : String) (hc : content f = some c) (hne : c ≠ "")
    (hs : pyStartsWith s "." = true) :
    ((processFile relevantFiles content extract relCode false f).1.map
        FileData.imports) =
      some ((extract c).filterMap (resolveImport relevantFiles f)) ∧
    (∀ entry, resolveImport relevantFiles f s = some entry →
      entry.type = "internal" ∧ entry.path = s ∧
      ∃ pre e post, extensions = pre ++ e :: post ∧
        entry.resolved = pathJoin (parentDir f) s ++ e ∧
        entry.resolved ∈ relevantFiles ∧
        ∀ e2 ∈ pre, pathJoin (parentDir f) s ++ e2 ∉ relevantFiles) ∧
    (resolveImport relevantFiles f s = none →
      ∀ e ∈ extensions, pathJoin (parentDir f) s ++ e ∉ relevantFiles) := by
  refine ⟨?_, ?_, ?_⟩
  · simp [processFile, hc, hne, processImports_fst]
  · intro entry hres
    simp only [resolveImport, hs, Bool.true_or, if_true] at hres
    cases hfind : extensions.find?
        (fun e => decide ((pathJoin (parentDir f) s ++ e) ∈ relevantFiles)) with
    | none => rw [hfind] at hres; simp at hres
    | some e =>
      rw [hfind] at hres
      simp only [Option.some.injEq] at hres
      obtain ⟨hpe, pre, post, hdecomp, hpre⟩ := find?_decomp _ _ _ hfind
      subst hres
      refine ⟨rfl, rfl, pre, e, post, hdecomp, rfl, of_decide_eq_true hpe, ?_⟩
      intro e2 he2
      exact of_decide_eq_false (hpre e2 he2)
  · intro hnone e he
    simp only [resolveImport, hs, Bool.true_or, if_true] at hnone
    cases hfind : extensions.find?
        (fun e => decide ((pathJoin (parentDir f) s ++ e) ∈ relevantFiles)) with
    | some e2 => rw [hfind] at hnone; simp at hnone
    | none =>
      have := List.find?_eq_none.mp hfind e he
      simpa using this

/-- Witness for C2 at a concrete input: from `src/a.js`, the extracted
string `./b` resolves to `src/b.js` and is recorded as the only (internal)
entry of the processed file. -/
theorem relative_import_resolution_witness :
    (fun (_ : String) => some "x") "src/a.js" = some "x" ∧
    pyStartsWith "./b" "." = true ∧
    (processFile ["src/b.js"] (fun _ => some "x") (fun _ => ["./b"])
        (fun _ => "") false "src/a.js").1.map FileData.imports =
      some [⟨"internal", "./b", "src/b.js"⟩] := by
  refine ⟨rfl, by decide, ?_⟩
  have h := relative_import_resolution ["src/b.js"] (fun _ => some "x")
    (fun _ => ["./b"]) (fun _ => "") "src/a.js" "x" "./b" rfl
    (by decide) (by decide)
  rw [h.1]
  decide

/-- Claim C3 counterexample: the extracted import `/abs/local` starts with
`/`, its root-resolved candidate `abs/local.js` is among the known files,
and yet the processed file records no import entry of any kind for it — it
is silently dropped. -/
theorem absolute_import_dropped_cex :
    pyStartsWith "/abs/local" "/" = true ∧
    ("abs/local" ++ ".js") ∈ ["a.js", "abs/local.js"] ∧
    (processFile ["a.js", "abs/local.js"] (fun _ => some "x")
        (fun _ => ["/abs/local"]) (fun _ => "") false "a.js").1 =
      some ⟨"a.js", "", [], []⟩ := by
  decide

theorem isPrefixOf_single_head {a b : Char} {l : List Char}
    (h : List.isPrefixOf [a] l = true) (hne : b ≠ a) :
    List.isPrefixOf [b] l = false := by
  cases l with
  | nil => simp [List.isPrefixOf] at h
  | cons c rest =>
    simp only [List.isPrefixOf, Bool.and_eq_true, beq_iff_eq, and_true] at h
    subst h
    simp [List.isPrefixOf, beq_eq_false_iff_ne, hne]

theorem startsWith_slash_not_dot {s : String}
    (hs : pyStartsWith s "/" = true) : pyStartsWith s "." = false := by
  unfold pyStartsWith at hs ⊢
  rw [show ("/" : String).toList = ['/'] by decide] at hs
  rw [show ("." : String).toList = ['.'] by decide]
  exact isPrefixOf_single_head hs (by decide)

/-- Claim C3 (amended): an extracted import string starting with `/` passes
the relative-or-absolute filter of the resolver but produces no recorded
resolution at all — no internal, external or unresolved entry — and in
particular is never classified as external. -/
theorem absolute_import_yields_nothing (relevantFiles : List String)
    (f s : String) (hs : pyStartsWith s "/" = true) :
    resolveImport relevantFiles f s = none := by
  have hdot := startsWith_slash_not_dot hs
  simp [resolveImport, hdot, hs]

/-- Witness for C3 (amended) at a concrete input. -/
theorem absolute_import_yields_nothing_witness :
    pyStartsWith "/abs/x" "/" = true ∧
    resolveImport ["abs/x.js"] "a.js" "/abs/x" = none :=
  ⟨by decide,
   absolute_import_yields_nothing ["abs/x.js"] "a.js" "/abs/x" (by decide)⟩

/-! ## Lemmas for identify_relevant_files -/

theorem fallback_subset {keywords allFiles : List String} {maxFiles : Nat}
    {p : String} :
    p ∈ fallbackRelevantFiles keywords allFiles maxFiles → p ∈ allFiles := by
  intro hp
  simp only [fallbackRelevantFiles] at hp
  have h1 := List.take_subset _ _ hp
  have h2 : p ∈ prefilterFilesByKeywords keywords allFiles (maxFiles * 2) := by
    rcases List.mem_append.mp h1 with h | h
    · exact (List.mem_filter.mp (mem_pySortBy h)).1
    · exact (List.mem_filter.mp h).1
  simp only [prefilterFilesByKeywords] at h2
  exact (List.mem_filter.mp (List.take_subset _ _ h2)).1

theorem fallback_length {keywords allFiles : List String} {maxFiles : Nat} :
    (fallbackRelevantFiles keywords allFiles maxFiles).length ≤ maxFiles := by
  simp only [fallbackRelevantFiles]
  exact List.length_take_le _ _

/-- Claim C4: every path returned by `identify_relevant_files` is validated
against the known file set (so the result is always a subset of it) and is
bounded by `max_files`; an unparseable response, a raised API error, or a
validation that leaves zero usable paths all divert to the keyword-based
fallback shortlist instead of failing. -/
theorem identify_files_validated_bounded (keywords allFiles : List String)
    (maxFiles : Nat) (api : ApiOutcome) :
    (∀ p ∈ identifyRelevantFilesCore keywords false allFiles maxFiles api,
      p ∈ allFiles) ∧
    (identifyRelevantFilesCore keywords false allFiles maxFiles api).length ≤
      maxFiles ∧
    (api = ApiOutcome.parseFailed ∨ api = ApiOutcome.failure →
      identifyRelevantFilesCore keywords false allFiles maxFiles api =
        fallbackRelevantFiles keywords allFiles maxFiles) ∧
    (∀ resp, api = ApiOutcome.parsed resp →
      (resp.filter fun p => decide (p ∈ allFiles)) = [] →
      identifyRelevantFilesCore keywords false allFiles maxFiles api =
        (fallbackRelevantFiles keywords allFiles maxFiles).take maxFiles) := by
  refine ⟨?_, ?_, ?_, ?_⟩
  · intro p hp
    cases api with
    | failure => exact fallback_subset (by simpa [identifyRelevantFilesCore] using hp)
    | parseFailed => exact fallback_subset (by simpa [identifyRelevantFilesCore] using hp)
    | parsed resp =>
      simp only [identifyRelevantFilesCore, Bool.false_eq_true, if_false] at hp
      split at hp
      · exact fallback_subset (List.take_subset _ _ hp)
      · have h2 := List.take_subset _ _ hp
        exact of_decide_eq_true (List.mem_filter.mp h2).2
  · cases api with
    | failure => simpa [identifyRelevantFilesCore] using fallback_length
    | parseFailed => simpa [identifyRelevantFilesCore] using fallback_length
    | parsed resp =>
      simp only [identifyRelevantFilesCore, Bool.false_eq_true, if_false]
      split
      · exact List.length_take_le _ _
      · exact List.length_take_le _ _
  · intro hapi
    rcases hapi with rfl | rfl <;> simp [identifyRelevantFilesCore]
  · intro resp hapi hempty
    subst hapi
    simp [identifyRelevantFilesCore, hempty]

/-- Witness for C4 at a concrete input: on a parse failure the function
returns the keyword fallback, which is drawn from the known files and is
within the bound. -/
theorem identify_files_validated_bounded_witness :
    identifyRelevantFilesCore ["but"] false ["src/button.js", "x.js"] 3
        ApiOutcome.parseFailed =
      fallbackRelevantFiles ["but"] ["src/button.js", "x.js"] 3 ∧
    "src/button.js" ∈ ["src/button.js", "x.js"] ∧
    (identifyRelevantFilesCore ["but"] false ["src/button.js", "x.js"] 3
        ApiOutcome.parseFailed).length ≤ 3 :=
  ⟨(identify_files_validated_bounded ["but"] ["src/button.js", "x.js"] 3
      ApiOutcome.parseFailed).2.2.1 (Or.inl rfl),
   (identify_files_validated_bounded ["but"] ["src/button.js", "x.js"] 3
      ApiOutcome.parseFailed).1 "src/button.js" (by decide),
   (identify_files_validated_bounded ["but"] ["src/button.js", "x.js"] 3
      ApiOutcome.parseFailed).2.1⟩

/-! ## The cancelled run (claim C5) -/

/-- Claim C5 counterexample: with the abort flag set before the run, the
analysis still issues a network call (the repository tree request), and its
returned document is exactly the one a normally-completed run with no
relevant files returns — there is no cancelled/incomplete marker. -/
theorem cancelled_run_counterexample :
    (analyzeIssueModel true "repo" "issue" [⟨"a.js", "blob"⟩] 15 []
        ApiOutcome.failure (fun _ => none) (fun _ => []) (fun _ => "")).1 ≠
      [] ∧
    (analyzeIssueModel true "repo" "issue" [⟨"a.js", "blob"⟩] 15 []
        ApiOutcome.failure (fun _ => none) (fun _ => []) (fun _ => "")).2 =
      (analyzeIssueModel false "repo" "issue" [⟨"a.js", "blob"⟩] 15 []
        (ApiOutcome.parsed []) (fun _ => none) (fun _ => [])
        (fun _ => "")).2 := by
  decide

/-- Claim C5 (amended): once the abort flag is set, the OpenAI call sites
issue nothing further (`identify_relevant_files` returns `[]` before its
API call and no per-file processing runs), but the repository tree listing
is still requested — it performs no cancellation check — and the run
returns the ordinary empty-result document, which carries no
cancelled/incomplete flag. -/
theorem cancelled_run_behavior (repoUrl issueText : String)
    (tree : List TreeItem) (maxFiles : Nat) (keywords : List String)
    (api : ApiOutcome) (content : String → Option String)
    (extract : String → List String) (relCode : String → String) :
    analyzeIssueModel true repoUrl issueText tree maxFiles keywords api
        content extract relCode =
      ([NetEvent.treeRequest], ⟨repoUrl, issueText, [], 0⟩) := by
  simp [analyzeIssueModel, identifyRelevantFilesCore,
    identifyRelevantFilesEvents]

/-! ## Lemmas for the imports-section excerpt (claim C7) -/

theorem importsLoop_block :
    ∀ (pre : List String) (d : String) (rest acc : List String),
      (∀ l ∈ pre, isImportStmt l = true ∨ isBlankLine l = true) →
      acc ≠ [] →
      isImportStmt d = false → isBlankLine d = false →
      importsLoop (pre ++ d :: rest) acc = acc ++ pre := by
  intro pre
  induction pre with
  | nil =>
    intro d rest acc hall hacc hd hbd
    simp only [List.nil_append, importsLoop]
    rw [if_neg (by simp [hd]), if_neg (by simp [hbd]), if_pos hacc]
    simp
  | cons l pre ih =>
    intro d rest acc hall hacc hd hbd
    have hstep : importsLoop ((l :: pre) ++ d :: rest) acc =
        importsLoop (pre ++ d :: rest) (acc ++ [l]) := by
      rcases hall l (by simp) with him | hbl
      · simp only [List.cons_append, importsLoop, if_pos him]
        rfl
      · by_cases him2 : isImportStmt l = true
        · simp only [List.cons_append, importsLoop, if_pos him2]
          rfl
        · simp only [List.cons_append, importsLoop]
          rw [if_neg (by simp [him2]), if_pos ⟨hacc, hbl⟩]
          rfl
    rw [hstep, ih d rest (acc ++ [l])
      (fun x hx => hall x (by simp [hx])) (by simp) hd hbd]
    simp

theorem toList_isPrefixOf_append (a b : String) :
    List.isPrefixOf a.toList (a ++ b).toList = true := by
  rw [List.isPrefixOf_iff_prefix,
    show (a ++ b).toList = a.toList ++ b.toList by simp]
  exact List.prefix_append _ _

/-- Claim C7: when the lines of a file start with a contiguous block of
ES-import or require lines (blank lines inside retained) followed by a first
non-import, non-blank line, the imports section is exactly that block, and
every excerpt produced by `extract_relevant_code` — the AI-extracted code
blocks as well as both fallbacks — begins with it. -/
theorem excerpt_includes_import_block
    (c : String) (ai : Option (List String)) (p0 d : String)
    (pre rest : List String)
    (hsplit : splitLines c = (p0 :: pre) ++ d :: rest)
    (hp0 : isImportStmt p0 = true)
    (hall : ∀ l ∈ p0 :: pre, isImportStmt l = true ∨ isBlankLine l = true)
    (hd : isImportStmt d = false) (hbd : isBlankLine d = false) :
    extractImportsSection c = String.intercalate "\n" (p0 :: pre) ∧
    List.isPrefixOf (extractImportsSection c).toList
      (extractRelevantCode false (some c) ai).toList = true := by
  have hsec : extractImportsSection c =
      String.intercalate "\n" (p0 :: pre) := by
    unfold extractImportsSection
    rw [hsplit]
    have h1 : importsLoop ((p0 :: pre) ++ d :: rest) [] =
        importsLoop (pre ++ d :: rest) [p0] := by
      simp only [List.cons_append, importsLoop, if_pos hp0]
      rfl
    rw [h1, importsLoop_block pre d rest [p0]
      (fun x hx => hall x (by simp [hx])) (by simp) hd hbd]
    simp
  refine ⟨hsec, ?_⟩
  have hcne : c ≠ "" := by
    intro hc
    rw [hc, show splitLines "" = [""] by decide] at hsplit
    have := congrArg List.length hsplit
    simp at this
  have key : ∀ X : String,
      List.isPrefixOf (extractImportsSection c).toList
        (extractImportsSection c ++ "\n\n" ++ X).toList = true := by
    intro X
    rw [String.append_assoc]
    exact toList_isPrefixOf_append _ _
  cases ai with
  | none =>
    simp only [extractRelevantCode, Bool.false_eq_true, if_false]
    rw [if_neg hcne]
    exact key _
  | some blocks =>
    simp only [extractRelevantCode, Bool.false_eq_true, if_false]
    rw [if_neg hcne]
    by_cases hb : blocks ≠ []
    · rw [if_pos hb]
      exact key _
    · rw [if_neg hb]
      exact key _

/-- Witness for C7 at a concrete file: the section is the two import lines
with the blank line between them retained, and it prefixes the excerpt. -/
theorem excerpt_includes_import_block_witness :
    extractImportsSection
        "import a from \"x\"\n\nimport b from \"y\"\ncode here\nmore" =
      "import a from \"x\"\n\nimport b from \"y\"" ∧
    List.isPrefixOf
      (extractImportsSection
        "import a from \"x\"\n\nimport b from \"y\"\ncode here\nmore").toList
      (extractRelevantCode false
        (some "import a from \"x\"\n\nimport b from \"y\"\ncode here\nmore")
        (some ["blk"])).toList = true := by
  have h := excerpt_includes_import_block
    "import a from \"x\"\n\nimport b from \"y\"\ncode here\nmore"
    (some ["blk"]) "import a from \"x\"" "code here"
    ["", "import b from \"y\""] ["more"]
    (by decide) (by decide) (by decide) (by decide) (by decide)
  exact ⟨by rw [h.1]; decide, h.2⟩

/-! ## Association-list lemmas -/

theorem alistLookup_update {α : Type} (st : List (String × α)) (k k2 : String)
    (v : α) :
    alistLookup (alistUpdate st k v) k2 =
      if k = k2 then some v else alistLookup st k2 := by
  induction st with
  | nil =>
    by_cases h : k = k2 <;> simp [alistUpdate, alistLookup, h]
  | cons e rest ih =>
    simp only [alistUpdate]
    by_cases he : e.1 = k
    · rw [if_pos he]
      by_cases h : k = k2
      · simp [alistLookup, h]
      · simp [alistLookup, h, he]
    · rw [if_neg he]
      by_cases h2 : e.1 = k2
      · have hk : ¬ k = k2 := fun hk => he (h2.trans hk.symm)
        simp [alistLookup, h2, hk]
      · simp [alistLookup, h2, ih]

theorem alistLookup_mem {α : Type} :
    ∀ {st : List (String × α)} {k : String} {v : α},
      alistLookup st k = some v → (k, v) ∈ st := by
  intro st
  induction st with
  | nil => intro k v h; simp [alistLookup] at h
  | cons e rest ih =>
    intro k v h
    simp only [alistLookup] at h
    by_cases he : e.1 = k
    · rw [if_pos he] at h
      have hv : e.2 = v := Option.some.inj h
      have he2 : e = (k, v) := by
        rw [← he, ← hv]
      rw [he2]
      exact List.mem_cons_self _ _
    · rw [if_neg he] at h
      exact List.mem_cons_of_mem _ (ih h)

theorem alistLookup_mapValues {α β : Type} (f : String → α → β) :
    ∀ (st : List (String × α)) (k : String),
      alistLookup (st.map fun e => (e.1, f e.1 e.2)) k =
        (alistLookup st k).map (f k) := by
  intro st
  induction st with
  | nil => intro k; simp [alistLookup]
  | cons e rest ih =>
    intro k
    simp only [List.map_cons, alistLookup]
    by_cases he : e.1 = k
    · rw [if_pos he, if_pos he]
      subst he
      simp
    · rw [if_neg he, if_neg he]
      exact ih k

/-! ## The finalize pass: lookup, imports preservation, and counting -/

theorem addImportedBy_lookup (st : List (String × FileData))
    (imp tgt k : String) :
    alistLookup (addImportedBy st imp tgt) k =
      (alistLookup st k).map (byAdd imp tgt k) := by
  unfold addImportedBy
  exact alistLookup_mapValues (byAdd imp tgt) st k

theorem byAdd_imports (imp tgt k : String) (d : FileData) :
    (byAdd imp tgt k d).imports = d.imports := by
  unfold byAdd
  split
  · split <;> rfl
  · rfl

theorem byAdd_ne_target (imp tgt k : String) (d : FileData) (h : ¬ k = tgt) :
    byAdd imp tgt k d = d := by
  unfold byAdd
  rw [if_neg h]

theorem byAdd_mem_preserve {A : String} (imp tgt k : String) (d : FileData)
    (hA : A ∈ d.imported_by) :
    (byAdd imp tgt k d).imported_by.count A = d.imported_by.count A ∧
      A ∈ (byAdd imp tgt k d).imported_by := by
  unfold byAdd
  split
  · split
    · exact ⟨rfl, hA⟩
    · rename_i hnotin
      have hne2 : ¬ A = imp := fun h => hnotin (h ▸ hA)
      constructor
      · simp [List.count_append, List.count_cons, hne2]
      · simp [hA]
  · exact ⟨rfl, hA⟩

theorem byAdd_notmem {A : String} (imp tgt k : String) (d : FileData)
    (hA : A ∉ d.imported_by) (hne : ¬ imp = A) :
    A ∉ (byAdd imp tgt k d).imported_by := by
  unfold byAdd
  split
  · split
    · exact hA
    · intro hmem
      rcases List.mem_append.mp hmem with h | h
      · exact hA h
      · simp at h
        exact hne h.symm
  · exact hA

theorem byAdd_adds {A : String} (k : String) (d : FileData)
    (hA : A ∉ d.imported_by) :
    (byAdd A k k d).imported_by.count A = d.imported_by.count A + 1 ∧
      A ∈ (byAdd A k k d).imported_by := by
  unfold byAdd
  rw [if_pos rfl, if_neg hA]
  constructor
  · simp [List.count_append, List.count_cons]
  · simp

theorem inner_pres {A B : String} (imp : String) :
    ∀ (ts : List String) (st : List (String × FileData)) (dB : FileData),
      alistLookup st B = some dB → A ∈ dB.imported_by →
      ∃ dB2,
        alistLookup (ts.foldl (fun s2 b => addImportedBy s2 imp b) st) B =
          some dB2 ∧
        dB2.imported_by.count A = dB.imported_by.count A ∧
          A ∈ dB2.imported_by := by
  intro ts
  induction ts with
  | nil => intro st dB h hA; exact ⟨dB, h, rfl, hA⟩
  | cons t ts ih =>
    intro st dB h hA
    have hstep : alistLookup (addImportedBy st imp t) B =
        some (byAdd imp t B dB) := by
      rw [addImportedBy_lookup, h]
      rfl
    obtain ⟨hc, hm⟩ := byAdd_mem_preserve imp t B dB hA
    obtain ⟨dB2, h2, hc2, hm2⟩ := ih (addImportedBy st imp t)
      (byAdd imp t B dB) hstep hm
    exact ⟨dB2, h2, by rw [hc2, hc], hm2⟩

theorem inner_notmem {A B : String} (imp : String) (hne : ¬ imp = A) :
    ∀ (ts : List String) (st : List (String × FileData)) (dB : FileData),
      alistLookup st B = some dB → A ∉ dB.imported_by →
      ∃ dB2,
        alistLookup (ts.foldl (fun s2 b => addImportedBy s2 imp b) st) B =
          some dB2 ∧ A ∉ dB2.imported_by := by
  intro ts
  induction ts with
  | nil => intro st dB h hA; exact ⟨dB, h, hA⟩
  | cons t ts ih =>
    intro st dB h hA
    have hstep : alistLookup (addImportedBy st imp t) B =
        some (byAdd imp t B dB) := by
      rw [addImportedBy_lookup, h]
      rfl
    exact ih (addImportedBy st imp t) (byAdd imp t B dB) hstep
      (byAdd_notmem imp t B dB hA hne)

theorem inner_skip {B : String} (imp : String) :
    ∀ (ts : List String), B ∉ ts →
      ∀ (st : List (String × FileData)) (dB : FileData),
        alistLookup st B = some dB →
        alistLookup (ts.foldl (fun s2 b => addImportedBy s2 imp b) st) B =
          some dB := by
  intro ts
  induction ts with
  | nil => intro _ st dB h; exact h
  | cons t ts ih =>
    intro hB st dB h
    have ht : ¬ B = t := fun hh => hB (by rw [hh]; exact List.mem_cons_self _ _)
    have hstep : alistLookup (addImportedBy st imp t) B = some dB := by
      rw [addImportedBy_lookup, h]
      simp [byAdd_ne_target imp t B dB ht]
    exact ih (fun hh => hB (List.mem_cons_of_mem _ hh)) _ dB hstep

theorem inner_adds {A B : String} :
    ∀ (ts : List String), B ∈ ts →
      ∀ (st : List (String × FileData)) (dB : FileData),
        alistLookup st B = some dB → A ∉ dB.imported_by →
        ∃ dB2,
          alistLookup (ts.foldl (fun s2 b => addImportedBy s2 A b) st) B =
            some dB2 ∧
          dB2.imported_by.count A = dB.imported_by.count A + 1 ∧
            A ∈ dB2.imported_by := by
  intro ts
  induction ts with
  | nil => intro h; simp at h
  | cons t ts ih =>
    intro hB st dB h hA
    by_cases ht : t = B
    · rw [ht]
      have hstep : alistLookup (addImportedBy st A B) B =
          some (byAdd A B B dB) := by
        rw [addImportedBy_lookup, h]
        rfl
      obtain ⟨hc, hm⟩ := byAdd_adds B dB hA
      obtain ⟨dB2, h2, hc2, hm2⟩ := inner_pres A ts (addImportedBy st A B)
        (byAdd A B B dB) hstep hm
      exact ⟨dB2, by rw [List.foldl_cons]; exact h2, by rw [hc2, hc], hm2⟩
    · have hstep : alistLookup (addImportedBy st A t) B = some dB := by
        rw [addImportedBy_lookup, h]
        simp [byAdd_ne_target A t B dB (fun hh => ht hh.symm)]
      have hB2 : B ∈ ts := by
        rcases List.mem_cons.mp hB with h1 | h1
        · exact absurd h1.symm ht
        · exact h1
      exact ih hB2 _ dB hstep hA

theorem fin_pres {A B : String} :
    ∀ (deps : List (String × List String)) (st : List (String × FileData))
      (dB : FileData),
      alistLookup st B = some dB → A ∈ dB.imported_by →
      ∃ dB2, alistLookup (finalize st deps) B = some dB2 ∧
        dB2.imported_by.count A = dB.imported_by.count A ∧
          A ∈ dB2.imported_by := by
  intro deps
  induction deps with
  | nil => intro st dB h hA; exact ⟨dB, h, rfl, hA⟩
  | cons fd rest ih =>
    intro st dB h hA
    obtain ⟨dB1, h1, hc1, hm1⟩ := inner_pres fd.1 fd.2 st dB h hA
    obtain ⟨dB2, h2, hc2, hm2⟩ := ih _ dB1 h1 hm1
    refine ⟨dB2, ?_, by rw [hc2, hc1], hm2⟩
    simpa [finalize, List.foldl_cons] using h2

theorem fin_adds {A B : String} :
    ∀ (deps : List (String × List String)) (st : List (String × FileData))
      (dB : FileData),
      alistLookup st B = some dB → A ∉ dB.imported_by →
      (∃ ts, (A, ts) ∈ deps ∧ B ∈ ts) →
      ∃ dB2, alistLookup (finalize st deps) B = some dB2 ∧
        dB2.imported_by.count A = 1 := by
  intro deps
  induction deps with
  | nil =>
    intro st dB h hA hex
    obtain ⟨ts, hts, _⟩ := hex
    simp at hts
  | cons fd rest ih =>
    intro st dB h hA hex
    obtain ⟨f, ts0⟩ := fd
    by_cases hfa : f = A ∧ B ∈ ts0
    · obtain ⟨rfl, hf2⟩ := hfa
      obtain ⟨dB1, h1, hc1, hm1⟩ := inner_adds ts0 hf2 st dB h hA
      obtain ⟨dB2, h2, hc2, hm2⟩ := fin_pres rest _ dB1 h1 hm1
      refine ⟨dB2, ?_, ?_⟩
      · simpa [finalize, List.foldl_cons] using h2
      · rw [hc2, hc1, List.count_eq_zero.mpr hA]
    · obtain ⟨ts, hts, hBts⟩ := hex
      rcases List.mem_cons.mp hts with heq | hrest
      · exfalso
        have hf1 : f = A := (congrArg Prod.fst heq).symm
        have hts0 : ts = ts0 := congrArg Prod.snd heq
        exact hfa ⟨hf1, hts0 ▸ hBts⟩
      · by_cases hf : f = A
        · subst hf
          have hB0 : B ∉ ts0 := fun hmem => hfa ⟨rfl, hmem⟩
          have h1 := inner_skip f ts0 hB0 st dB h
          obtain ⟨dB2, h2, hc2⟩ := ih _ dB h1 hA ⟨ts, hrest, hBts⟩
          refine ⟨dB2, ?_, hc2⟩
          simpa [finalize, List.foldl_cons] using h2
        · obtain ⟨dB1, h1, hm1⟩ := inner_notmem f hf ts0 st dB h hA
          obtain ⟨dB2, h2, hc2⟩ := ih _ dB1 h1 hm1 ⟨ts, hrest, hBts⟩
          refine ⟨dB2, ?_, hc2⟩
          simpa [finalize, List.foldl_cons] using h2

theorem inner_lookup_imports {k : String} (imp : String) :
    ∀ (ts : List String) (st : List (String × FileData)),
      (alistLookup (ts.foldl (fun s2 b => addImportedBy s2 imp b) st) k).map
          FileData.imports =
        (alistLookup st k).map FileData.imports := by
  intro ts
  induction ts with
  | nil => intro st; rfl
  | cons t ts ih =>
    intro st
    rw [List.foldl_cons, ih]
    cases hl : alistLookup st k with
    | none => simp [addImportedBy_lookup, hl]
    | some d => simp [addImportedBy_lookup, hl, byAdd_imports]

theorem fin_lookup_imports {k : String} :
    ∀ (deps : List (String × List String)) (st : List (String × FileData)),
      (alistLookup (finalize st deps) k).map FileData.imports =
        (alistLookup st k).map FileData.imports := by
  intro deps
  induction deps with
  | nil => intro st; rfl
  | cons fd rest ih =>
    intro st
    have h1 : finalize st (fd :: rest) =
        finalize (fd.2.foldl (fun s2 b => addImportedBy s2 fd.1 b) st) rest := by
      simp [finalize, List.foldl_cons]
    rw [h1, ih, inner_lookup_imports]

theorem inner_lookup_isSome {k : String} (imp : String) :
    ∀ (ts : List String) (st : List (String × FileData)),
      (alistLookup (ts.foldl (fun s2 b => addImportedBy s2 imp b) st) k).isSome
        = (alistLookup st k).isSome := by
  intro ts
  induction ts with
  | nil => intro st; rfl
  | cons t ts ih =>
    intro st
    rw [List.foldl_cons, ih]
    cases hl : alistLookup st k with
    | none => simp [addImportedBy_lookup, hl]
    | some d => simp [addImportedBy_lookup, hl]

theorem fin_lookup_isSome {k : String} :
    ∀ (deps : List (String × List String)) (st : List (String × FileData)),
      (alistLookup (finalize st deps) k).isSome = (alistLookup st k).isSome := by
  intro deps
  induction deps with
  | nil => intro st; rfl
  | cons fd rest ih =>
    intro st
    have h1 : finalize st (fd :: rest) =
        finalize (fd.2.foldl (fun s2 b => addImportedBy s2 fd.1 b) st) rest := by
      simp [finalize, List.foldl_cons]
    rw [h1, ih, inner_lookup_isSome]

/-! ## Fold invariants of build_file_structure -/

theorem mem_insertOnce {l : List String} {x y : String} :
    y ∈ insertOnce l x ↔ y ∈ l ∨ y = x := by
  unfold insertOnce
  split
  · rename_i hx
    constructor
    · exact Or.inl
    · rintro (h | rfl)
      · exact h
      · exact hx
  · simp [List.mem_append]

theorem mem_foldl_insertOnce :
    ∀ (ds s : List String) (x : String),
      x ∈ ds.foldl insertOnce s ↔ x ∈ s ∨ x ∈ ds := by
  intro ds
  induction ds with
  | nil => intro s x; simp
  | cons d ds ih =>
    intro s x
    simp only [List.foldl_cons]
    rw [ih, mem_insertOnce]
    simp only [List.mem_cons]
    constructor
    · rintro ((h | h) | h)
      · exact Or.inl h
      · exact Or.inr (Or.inl h)
      · exact Or.inr (Or.inr h)
    · rintro (h | h | h)
      · exact Or.inl (Or.inl h)
      · exact Or.inl (Or.inr h)
      · exact Or.inr h

theorem processFile_data (rf : List String) (content : String → Option String)
    (extract : String → List String) (relCode : String → String)
    (f : String) (d : FileData)
    (h : (processFile rf content extract relCode false f).1 = some d) :
    ∃ c, content f = some c ∧ c ≠ "" ∧
      d = ⟨f, relCode f, (processImports rf f (extract c)).1, []⟩ ∧
      (processFile rf content extract relCode false f).2 =
        (processImports rf f (extract c)).2 := by
  cases hc : content f with
  | none => simp [processFile, hc] at h
  | some c =>
    by_cases hce : c = ""
    · simp [processFile, hc, hce] at h
    · refine ⟨c, rfl, hce, ?_, ?_⟩
      · simp only [processFile, Bool.false_eq_true, if_false, hc] at h
        rw [if_neg hce] at h
        exact (Option.some.inj h).symm
      · simp [processFile, hc, hce]

theorem processFile_resolved_mem_aux (rf : List String) (fp : String) :
    ∀ (imps : List String) (acc : List ImportEntry × List String),
      (∀ e ∈ acc.1, e.resolved ∈ acc.2) →
      ∀ e ∈ (imps.foldl (impStep rf fp) acc).1,
        e.resolved ∈ (imps.foldl (impStep rf fp) acc).2 := by
  intro imps
  induction imps with
  | nil => intro acc hacc e he; exact hacc e he
  | cons s rest ih =>
    intro acc hacc e he
    simp only [List.foldl_cons] at he ⊢
    cases hres : resolveImport rf fp s with
    | none =>
      rw [impStep_none acc hres] at he ⊢
      exact ih acc hacc e he
    | some entry =>
      rw [impStep_some acc hres] at he ⊢
      refine ih _ ?_ e he
      intro e2 he2
      rcases List.mem_append.mp he2 with h2 | h2
      · have h3 := hacc e2 h2
        rw [mem_insertOnce]
        exact Or.inl h3
      · simp at h2
        rw [h2, mem_insertOnce]
        exact Or.inr rfl

theorem processImports_resolved_mem (rf : List String) (fp : String)
    (imps : List String) :
    ∀ e ∈ (processImports rf fp imps).1,
      e.resolved ∈ (processImports rf fp imps).2 := by
  intro e he
  exact processFile_resolved_mem_aux rf fp imps ([], []) (by simp) e he

theorem structFold_spec (rf : List String) (content : String → Option String)
    (extract : String → List String) (relCode : String → String) :
    ∀ (fs : List String) (st : List (String × FileData)),
      (∀ k d, alistLookup st k = some d →
        (processFile rf content extract relCode false k).1 = some d) →
      ∀ k d,
        alistLookup (structFold rf content extract relCode false fs st) k =
          some d →
        (processFile rf content extract relCode false k).1 = some d := by
  intro fs
  induction fs with
  | nil => intro st hst k d h; exact hst k d h
  | cons f fs ih =>
    intro st hst k d h
    cases hpf : (processFile rf content extract relCode false f).1 with
    | none =>
      simp only [structFold, hpf] at h
      exact ih _ hst k d h
    | some dd =>
      simp only [structFold, hpf] at h
      refine ih _ ?_ k d h
      intro k2 d2 h2
      rw [alistLookup_update] at h2
      by_cases hfk : f = k2
      · rw [if_pos hfk] at h2
        cases h2
        rw [← hfk]
        exact hpf
      · rw [if_neg hfk] at h2
        exact hst k2 d2 h2

theorem structFold_keys (rf : List String) (content : String → Option String)
    (extract : String → List String) (relCode : String → String) :
    ∀ (fs : List String) (st : List (String × FileData)) (k : String)
      (d : FileData),
      alistLookup (structFold rf content extract relCode false fs st) k =
        some d →
      (alistLookup st k).isSome = true ∨ k ∈ fs := by
  intro fs
  induction fs with
  | nil =>
    intro st k d h
    have h2 : alistLookup st k = some d := h
    exact Or.inl (by rw [h2]; rfl)
  | cons f fs ih =>
    intro st k d h
    cases hpf : (processFile rf content extract relCode false f).1 with
    | none =>
      simp only [structFold, hpf] at h
      rcases ih _ k d h with h2 | h2
      · exact Or.inl h2
      · exact Or.inr (List.mem_cons_of_mem _ h2)
    | some dd =>
      simp only [structFold, hpf] at h
      rcases ih _ k d h with h2 | h2
      · rw [alistLookup_update] at h2
        by_cases hfk : f = k
        · exact Or.inr (by rw [← hfk]; exact List.mem_cons_self _ _)
        · rw [if_neg hfk] at h2
          exact Or.inl h2
      · exact Or.inr (List.mem_cons_of_mem _ h2)

theorem structFold_isSome (rf : List String) (content : String → Option String)
    (extract : String → List String) (relCode : String → String) :
    ∀ (fs : List String) (st : List (String × FileData)) (k : String),
      ((alistLookup st k).isSome = true ∨
        (k ∈ fs ∧
          ((processFile rf content extract relCode false k).1.isSome = true))) →
      (alistLookup (structFold rf content extract relCode false fs st) k).isSome
        = true := by
  intro fs
  induction fs with
  | nil =>
    intro st k h
    rcases h with h | ⟨hk, _⟩
    · simpa [structFold] using h
    · simp at hk
  | cons f fs ih =>
    intro st k h
    cases hpf : (processFile rf content extract relCode false k).1 with
    | none =>
      have h2 : (alistLookup st k).isSome = true := by
        rcases h with h | ⟨_, hsome⟩
        · exact h
        · rw [hpf] at hsome
          simp at hsome
      cases hpf2 : (processFile rf content extract relCode false f).1 with
      | none =>
        simp only [structFold, hpf2]
        exact ih _ k (Or.inl h2)
      | some dd =>
        simp only [structFold, hpf2]
        refine ih _ k (Or.inl ?_)
        rw [alistLookup_update]
        by_cases hfk : f = k
        · rw [if_pos hfk]
          rfl
        · rw [if_neg hfk]
          exact h2
    | some dd0 =>
      cases hpf2 : (processFile rf content extract relCode false f).1 with
      | none =>
        simp only [structFold, hpf2]
        apply ih
        rcases h with h | ⟨hk, hsome⟩
        · exact Or.inl h
        · rcases List.mem_cons.mp hk with rfl | hk2
          · rw [hpf] at hpf2
            simp at hpf2
          · exact Or.inr ⟨hk2, hsome⟩
      | some dd =>
        simp only [structFold, hpf2]
        apply ih
        by_cases hfk : f = k
        · refine Or.inl ?_
          rw [alistLookup_update, if_pos hfk]
          rfl
        · rcases h with h | ⟨hk, hsome⟩
          · refine Or.inl ?_
            rw [alistLookup_update, if_neg hfk]
            exact h
          · rcases List.mem_cons.mp hk with rfl | hk2
            · exact absurd rfl hfk
            · exact Or.inr ⟨hk2, hsome⟩

theorem structFold_imported_by (rf : List String)
    (content : String → Option String) (extract : String → List String)
    (relCode : String → String) :
    ∀ (fs : List String) (st : List (String × FileData)),
      (∀ k d, alistLookup st k = some d → d.imported_by = []) →
      ∀ k d,
        alistLookup (structFold rf content extract relCode false fs st) k =
          some d →
        d.imported_by = [] := by
  intro fs
  induction fs with
  | nil => intro st hst k d h; exact hst k d h
  | cons f fs ih =>
    intro st hst k d h
    cases hpf : (processFile rf content extract relCode false f).1 with
    | none =>
      simp only [structFold, hpf] at h
      exact ih _ hst k d h
    | some dd =>
      simp only [structFold, hpf] at h
      refine ih _ ?_ k d h
      intro k2 d2 h2
      rw [alistLookup_update] at h2
      by_cases hfk : f = k2
      · rw [if_pos hfk] at h2
        cases h2
        obtain ⟨c, _, _, hdd, _⟩ := processFile_data rf content extract relCode f dd hpf
        rw [hdd]
      · rw [if_neg hfk] at h2
        exact hst k2 d2 h2

theorem depsFold_spec (rf : List String) (content : String → Option String)
    (extract : String → List String) (relCode : String → String) :
    ∀ (fs : List String) (dp : List (String × List String)),
      (∀ k s, alistLookup dp k = some s →
        ∀ x, x ∈ s ↔ x ∈ (processFile rf content extract relCode false k).2) →
      ∀ k s,
        alistLookup (depsFold rf content extract relCode false fs dp) k =
          some s →
        ∀ x, x ∈ s ↔ x ∈ (processFile rf content extract relCode false k).2 := by
  intro fs
  induction fs with
  | nil => intro dp hdp k s h; exact hdp k s h
  | cons f fs ih =>
    intro dp hdp k s h
    simp only [depsFold] at h
    refine ih _ ?_ k s h
    intro k2 s2 h2 x
    unfold depsUpdate at h2
    split at h2
    · exact hdp k2 s2 h2 x
    · split at h2
      · rename_i s1 hlk
        rw [alistLookup_update] at h2
        by_cases hfk : f = k2
        · rw [if_pos hfk] at h2
          cases h2
          rw [← hfk]
          rw [mem_foldl_insertOnce]
          have hs1 := hdp f s1 hlk x
          constructor
          · rintro (h3 | h3)
            · exact hs1.mp h3
            · exact h3
          · intro h3
            exact Or.inr h3
        · rw [if_neg hfk] at h2
          exact hdp k2 s2 h2 x
      · rw [alistLookup_update] at h2
        by_cases hfk : f = k2
        · rw [if_pos hfk] at h2
          cases h2
          rw [← hfk]
          rw [mem_foldl_insertOnce]
          simp
        · rw [if_neg hfk] at h2
          exact hdp k2 s2 h2 x

theorem depsFold_isSome (rf : List String) (content : String → Option String)
    (extract : String → List String) (relCode : String → String) :
    ∀ (fs : List String) (dp : List (String × List String)) (k : String),
      ((alistLookup dp k).isSome = true ∨
        (k ∈ fs ∧ (processFile rf content extract relCode false k).2 ≠ [])) →
      (alistLookup (depsFold rf content extract relCode false fs dp) k).isSome
        = true := by
  intro fs
  induction fs with
  | nil =>
    intro dp k h
    rcases h with h | ⟨hk, _⟩
    · simpa [depsFold] using h
    · simp at hk
  | cons f fs ih =>
    intro dp k h
    simp only [depsFold]
    apply ih
    have hupd : ∀ v, (alistLookup dp k).isSome = true →
        (alistLookup (alistUpdate dp f v) k).isSome = true := by
      intro v hv
      rw [alistLookup_update]
      by_cases hfk : f = k
      · rw [if_pos hfk]; rfl
      · rw [if_neg hfk]; exact hv
    rcases h with h | ⟨hk, hne⟩
    · refine Or.inl ?_
      unfold depsUpdate
      split
      · exact h
      · split
        · exact hupd _ h
        · exact hupd _ h
    · rcases List.mem_cons.mp hk with rfl | hk2
      · refine Or.inl ?_
        unfold depsUpdate
        split
        · rename_i hemp
          exact absurd (List.isEmpty_iff.mp hemp) hne
        · split
          · rw [alistLookup_update, if_pos rfl]
            rfl
          · rw [alistLookup_update, if_pos rfl]
            rfl
      · exact Or.inr ⟨hk2, hne⟩

/-- Claim C1: in a built dependency graph, if file `A` records an internal
edge resolved to `B` and `B` is a file of the graph, then file `B`'s
`imported_by` list contains `A` exactly once — even when `A` contains two
different literal import statements that resolve to the same target `B`. -/
theorem internal_edge_imported_by_once
    (relevantFiles : List String) (content : String → Option String)
    (extract : String → List String) (relCode : String → String)
    (A B : String) (dataA dataB : FileData) (entry : ImportEntry)
    (hA : alistLookup
        (buildFileStructure relevantFiles content extract relCode false) A =
      some dataA)
    (hB : alistLookup
        (buildFileStructure relevantFiles content extract relCode false) B =
      some dataB)
    (hentry : entry ∈ dataA.imports) (hres : entry.resolved = B) :
    dataB.imported_by.count A = 1 := by
  simp only [buildFileStructure, Bool.false_eq_true, if_false] at hA hB
  set st0 := structFold relevantFiles content extract relCode false
    relevantFiles [] with hst0
  set dps := depsFold relevantFiles content extract relCode false
    relevantFiles [] with hdps
  -- the structure entry of A before the finalize pass
  have hAimp := fin_lookup_imports (k := A) dps st0
  rw [hA] at hAimp
  cases hA0 : alistLookup st0 A with
  | none => rw [hA0] at hAimp; simp at hAimp
  | some dA0 =>
    rw [hA0] at hAimp
    have hAimports : dataA.imports = dA0.imports := by
      simpa using hAimp
    have hpfA := structFold_spec relevantFiles content extract relCode
      relevantFiles [] (by intro k d h; simp [alistLookup] at h) A dA0 hA0
    obtain ⟨cA, hcA, hceA, hdA0, hpf2A⟩ :=
      processFile_data relevantFiles content extract relCode A dA0 hpfA
    -- the recorded edge pushed B into A's dependency set
    have hmem2 : entry ∈ (processImports relevantFiles A (extract cA)).1 := by
      have : dA0.imports = (processImports relevantFiles A (extract cA)).1 := by
        rw [hdA0]
      rw [← this, ← hAimports]
      exact hentry
    have hdep := processImports_resolved_mem relevantFiles A (extract cA)
      entry hmem2
    have hdepB : B ∈ (processFile relevantFiles content extract relCode
        false A).2 := by
      rw [hpf2A, ← hres]
      exact hdep
    have hdepne : (processFile relevantFiles content extract relCode
        false A).2 ≠ [] := by
      intro hnil
      rw [hnil] at hdepB
      simp at hdepB
    have hAmem : A ∈ relevantFiles := by
      rcases structFold_keys relevantFiles content extract relCode
        relevantFiles [] A dA0 hA0 with h | h
      · simp [alistLookup] at h
      · exact h
    -- A is a key of the dependencies dict and its set contains B
    have hdpsA : (alistLookup dps A).isSome = true :=
      depsFold_isSome relevantFiles content extract relCode relevantFiles []
        A (Or.inr ⟨hAmem, hdepne⟩)
    cases hdpsA0 : alistLookup dps A with
    | none => rw [hdpsA0] at hdpsA; simp at hdpsA
    | some sA =>
      have hsA := depsFold_spec relevantFiles content extract relCode
        relevantFiles [] (by intro k s h; simp [alistLookup] at h) A sA hdpsA0
      have hBinsA : B ∈ sA := (hsA B).mpr hdepB
      have hpair : (A, sA) ∈ dps := alistLookup_mem hdpsA0
      -- the structure entry of B before the finalize pass
      have hB0s : (alistLookup st0 B).isSome = true := by
        rw [← fin_lookup_isSome (k := B) dps st0, hB]
        rfl
      cases hB0 : alistLookup st0 B with
      | none => rw [hB0] at hB0s; simp at hB0s
      | some dB0 =>
        have hBempty : dB0.imported_by = [] :=
          structFold_imported_by relevantFiles content extract relCode
            relevantFiles [] (by intro k d h; simp [alistLookup] at h) B dB0 hB0
        have hAnotin : A ∉ dB0.imported_by := by
          rw [hBempty]
          simp
        obtain ⟨dB2, hdB2, hcount⟩ :=
          fin_adds dps st0 dB0 hB0 hAnotin ⟨sA, hpair, hBinsA⟩
        rw [hB] at hdB2
        rw [Option.some.inj hdB2]
        exact hcount

/-- Witness for C1 at a concrete graph: `src/a.js` imports `src/b.js` via
the two different literals `./b` and `././b`; the built structure lists
`src/a.js` exactly once in the `imported_by` of `src/b.js`. -/
theorem internal_edge_imported_by_once_witness :
    alistLookup
        (buildFileStructure ["src/a.js", "src/b.js"] (fun p => some p)
          (fun c => if c = "src/a.js" then ["./b", "././b"] else [])
          (fun _ => "") false) "src/b.js" =
      some ⟨"src/b.js", "", [], ["src/a.js"]⟩ ∧
    (FileData.mk "src/b.js" "" [] ["src/a.js"]).imported_by.count "src/a.js"
      = 1 := by
  refine ⟨by decide, ?_⟩
  exact internal_edge_imported_by_once ["src/a.js", "src/b.js"]
    (fun p => some p)
    (fun c => if c = "src/a.js" then ["./b", "././b"] else []) (fun _ => "")
    "src/a.js" "src/b.js"
    ⟨"src/a.js", "",
      [⟨"internal", "./b", "src/b.js"⟩, ⟨"internal", "././b", "src/b.js"⟩], []⟩
    ⟨"src/b.js", "", [], ["src/a.js"]⟩ ⟨"internal", "./b", "src/b.js"⟩
    (by decide) (by decide) (by decide) rfl

/-- Claim C8: per-file I/O failures never abort the run: a 404 and an
unreadable remote file both yield no content, import extraction over
missing content yields the empty list, a per-file analysis error yields
`None` for that file only, and every other file with readable content still
receives its entry in the built structure. -/
theorem io_failures_nonfatal :
    (∀ rest : List FetchOutcome,
      getFileContent (FetchOutcome.notFound :: rest) = none) ∧
    (∀ rest : List FetchOutcome,
      getFileContent (FetchOutcome.netError :: rest) = none) ∧
    (∀ es6 dyn req : String → List String,
      extractImports es6 dyn req none = []) ∧
    (∀ (α : Type) (analyze : String → α) (p msg : String),
      extractFileDetails analyze p (Except.error msg) = none) ∧
    (∀ (relevantFiles : List String) (content : String → Option String)
      (extract : String → List String) (relCode : String → String)
      (g c : String), g ∈ relevantFiles → content g = some c → c ≠ "" →
      ∃ d, alistLookup
        (buildFileStructure relevantFiles content extract relCode false) g =
          some d) := by
  refine ⟨fun _ => rfl, fun _ => rfl, fun _ _ _ => rfl, ?_, ?_⟩
  · intro α analyze p msg
    unfold extractFileDetails
    split
    · rfl
    · rfl
  · intro relevantFiles content extract relCode g c hg hc hcne
    simp only [buildFileStructure, Bool.false_eq_true, if_false]
    have hpf : (processFile relevantFiles content extract relCode
        false g).1.isSome = true := by
      simp [processFile, hc, hcne]
    have h1 := structFold_isSome relevantFiles content extract relCode
      relevantFiles [] g (Or.inr ⟨hg, hpf⟩)
    have h2 : (alistLookup
        (finalize
          (structFold relevantFiles content extract relCode false
            relevantFiles [])
          (depsFold relevantFiles content extract relCode false
            relevantFiles [])) g).isSome = true := by
      rw [fin_lookup_isSome]
      exact h1
    cases hl : alistLookup
        (finalize
          (structFold relevantFiles content extract relCode false
            relevantFiles [])
          (depsFold relevantFiles content extract relCode false
            relevantFiles [])) g with
    | none => rw [hl] at h2; simp at h2
    | some d => exact ⟨d, rfl⟩

/-- Witness for C8 at concrete inputs: a 404 fetch yields no content,
extraction over it yields `[]`, an analyzer error yields `none`, and in a
two-file build where `x.js` has no content, `a.js` still gets its entry. -/
theorem io_failures_nonfatal_witness :
    getFileContent [FetchOutcome.notFound] = none ∧
    extractImports (fun _ => ["a"]) (fun _ => ["b"]) (fun _ => ["c"]) none
      = [] ∧
    extractFileDetails (fun c => c) "p.js" (Except.error "boom") = none ∧
    ∃ d, alistLookup
      (buildFileStructure ["a.js", "x.js"]
        (fun p => if p = "a.js" then some "y" else none)
        (fun _ => []) (fun _ => "") false) "a.js" = some d :=
  ⟨io_failures_nonfatal.1 [],
   io_failures_nonfatal.2.2.1 (fun _ => ["a"]) (fun _ => ["b"])
     (fun _ => ["c"]),
   io_failures_nonfatal.2.2.2.1 String (fun c => c) "p.js" "boom",
   io_failures_nonfatal.2.2.2.2 ["a.js", "x.js"]
     (fun p => if p = "a.js" then some "y" else none) (fun _ => [])
     (fun _ => "") "a.js" "y" (by decide) (by decide) (by decide)⟩

/-! ## Termination and guards of explore_repository (claim C9) -/

theorem filter_length_le_of_imp {p q : String → Bool}
    (h : ∀ x, p x = true → q x = true) :
    ∀ l : List String, (l.filter p).length ≤ (l.filter q).length := by
  intro l
  induction l with
  | nil => simp
  | cons x xs ih =>
    rw [List.filter_cons, List.filter_cons]
    cases hp : p x with
    | false =>
      simp only [Bool.false_eq_true, if_false]
      cases hq : q x with
      | false => simp only [Bool.false_eq_true, if_false]; exact ih
      | true =>
        simp only [if_true, List.length_cons]
        exact Nat.le_succ_of_le ih
    | true =>
      rw [h x hp]
      simp only [if_true, List.length_cons]
      exact Nat.succ_le_succ ih

theorem unvisited_mono (repo : RepoListing) {v v2 : List String}
    (hsub : ∀ x ∈ v, x ∈ v2) :
    unvisitedCount repo v2 ≤ unvisitedCount repo v := by
  unfold unvisitedCount
  apply filter_length_le_of_imp
  intro x hx
  simp only [decide_eq_true_eq] at hx ⊢
  exact fun hv => hx (hsub x hv)

theorem alistLookup_key_mem {α : Type} {repo : List (String × α)} {k : String}
    {c : α} (h : alistLookup repo k = some c) : k ∈ repo.map Prod.fst := by
  have h2 := alistLookup_mem h
  exact List.mem_map.mpr ⟨(k, c), h2, rfl⟩

theorem filter_cons_unvisited_lt :
    ∀ (l : List String) (x : String), x ∈ l → ∀ (v : List String), x ∉ v →
      (l.filter fun k => decide (k ∉ x :: v)).length <
        (l.filter fun k => decide (k ∉ v)).length := by
  intro l
  induction l with
  | nil => intro x hx; simp at hx
  | cons y ys ih =>
    intro x hx v hxv
    rw [List.filter_cons, List.filter_cons]
    have himp : ∀ k : String,
        decide (k ∉ x :: v) = true → decide (k ∉ v) = true := by
      intro k hk
      simp only [decide_eq_true_eq, List.mem_cons] at hk ⊢
      exact fun hv => hk (Or.inr hv)
    by_cases hyx : y = x
    · have h1 : (decide (y ∉ x :: v)) = false := by
        simp [hyx]
      have h2 : (decide (y ∉ v)) = true := by
        simp [hyx, hxv]
      rw [h1, h2]
      simp only [Bool.false_eq_true, if_false, if_true, List.length_cons]
      exact Nat.lt_succ_of_le (filter_length_le_of_imp himp ys)
    · have hx2 : x ∈ ys := by
        rcases List.mem_cons.mp hx with h | h
        · exact absurd h.symm hyx
        · exact h
      cases hy1 : (decide (y ∉ x :: v)) with
      | true =>
        rw [himp y hy1]
        simp only [if_true, List.length_cons]
        exact Nat.succ_lt_succ (ih x hx2 v hxv)
      | false =>
        simp only [Bool.false_eq_true, if_false]
        cases hy2 : (decide (y ∉ v)) with
        | false =>
          simp only [Bool.false_eq_true, if_false]
          exact ih x hx2 v hxv
        | true =>
          simp only [if_true, List.length_cons]
          exact Nat.lt_succ_of_lt (ih x hx2 v hxv)

theorem unvisited_decrease {repo : RepoListing} {p : String}
    {v : List String} {c : RContents} (hlook : alistLookup repo p = some c)
    (hpv : p ∉ v) :
    unvisitedCount repo (p :: v) < unvisitedCount repo v := by
  unfold unvisitedCount
  exact filter_cons_unvisited_lt (repo.map Prod.fst) p
    (alistLookup_key_mem hlook) v hpv

theorem exploreFold_visited_mono
    (step : String → List String → List String × List String)
    (hstep : ∀ d v x, x ∈ v → x ∈ (step d v).2) :
    ∀ (ds : List String) (v : List String) (x : String), x ∈ v →
      x ∈ (exploreFold step ds v).2 := by
  intro ds
  induction ds with
  | nil => intro v x hx; exact hx
  | cons d ds ih =>
    intro v x hx
    exact ih _ x (hstep d v x hx)

theorem exploreRepo_visited_mono (repo : RepoListing) (maxDepth : Nat) :
    ∀ (fuel : Nat) (path : String) (v : List String) (x : String), x ∈ v →
      x ∈ (exploreRepo repo maxDepth fuel path v).2 := by
  intro fuel
  induction fuel with
  | zero => intro path v x hx; exact hx
  | succ n ih =>
    intro path v x hx
    simp only [exploreRepo]
    split
    · exact hx
    · cases hlook : alistLookup repo path with
      | none => exact List.mem_cons_of_mem _ hx
      | some cont =>
        cases cont with
        | single item => exact List.mem_cons_of_mem _ hx
        | multi items =>
          exact exploreFold_visited_mono _ (fun d w y hy => ih d w y hy) _ _ x
            (List.mem_cons_of_mem _ hx)

theorem explore_stable (repo : RepoListing) (maxDepth : Nat) :
    ∀ a : Nat,
      (∀ (b : Nat) (p : String) (v : List String),
        unvisitedCount repo v < a → unvisitedCount repo v < b →
        exploreRepo repo maxDepth a p v = exploreRepo repo maxDepth b p v) ∧
      (∀ (b : Nat) (ds : List String) (v : List String),
        unvisitedCount repo v < a → unvisitedCount repo v < b →
        exploreFold (fun d w => exploreRepo repo maxDepth a d w) ds v =
          exploreFold (fun d w => exploreRepo repo maxDepth b d w) ds v) := by
  intro a
  induction a using Nat.strong_induction_on with
  | _ a IH =>
    have hP : ∀ (b : Nat) (p : String) (v : List String),
        unvisitedCount repo v < a → unvisitedCount repo v < b →
        exploreRepo repo maxDepth a p v = exploreRepo repo maxDepth b p v := by
      intro b p v ha hb
      obtain ⟨a2, rfl⟩ : ∃ a2, a = a2 + 1 := ⟨a - 1, by omega⟩
      obtain ⟨b2, rfl⟩ : ∃ b2, b = b2 + 1 := ⟨b - 1, by omega⟩
      simp only [exploreRepo]
      split
      · rfl
      · rename_i hguard
        push_neg at hguard
        cases hlook : alistLookup repo p with
        | none => rfl
        | some cont =>
          cases cont with
          | single item => rfl
          | multi items =>
            have hdec : unvisitedCount repo (p :: v) < unvisitedCount repo v :=
              unvisited_decrease hlook hguard.1
            have hQ := (IH a2 (by omega)).2 b2
              (items.filterMap fun it =>
                match it with
                | RItem.dir p => some p
                | RItem.file _ => none)
              (p :: v) (by omega) (by omega)
            dsimp only
            rw [hQ]
    refine ⟨hP, ?_⟩
    intro b ds
    induction ds with
    | nil => intro v _ _; rfl
    | cons d ds ihds =>
      intro v ha hb
      simp only [exploreFold]
      rw [hP b d v ha hb]
      have hmono : ∀ x ∈ v, x ∈ (exploreRepo repo maxDepth b d v).2 :=
        fun x hx => exploreRepo_visited_mono repo maxDepth b d v x hx
      have hle := unvisited_mono repo hmono
      rw [ihds (exploreRepo repo maxDepth b d v).2 (by omega) (by omega)]

/-- Claim C9: directory exploration terminates on every (finite) repository:
an already-visited path and a path deeper than `max_depth` immediately
return the empty list, every other step marks its path visited before
recursing, and once the fuel exceeds the number of unvisited listing keys
the result no longer depends on it — the recursion is well-founded. -/
theorem explore_guards_and_terminates (repo : RepoListing)
    (maxDepth fuel : Nat) (p : String) (v : List String) :
    (p ∈ v → exploreRepo repo maxDepth fuel p v = ([], v)) ∧
    (pyDepth p > maxDepth → exploreRepo repo maxDepth fuel p v = ([], v)) ∧
    (∀ fuel2, unvisitedCount repo v < fuel → unvisitedCount repo v < fuel2 →
      exploreRepo repo maxDepth fuel p v =
        exploreRepo repo maxDepth fuel2 p v) := by
  refine ⟨?_, ?_, ?_⟩
  · intro hp
    cases fuel with
    | zero => rfl
    | succ n =>
      simp only [exploreRepo]
      rw [if_pos (Or.inl hp)]
  · intro hd
    cases fuel with
    | zero => rfl
    | succ n =>
      simp only [exploreRepo]
      rw [if_pos (Or.inr hd)]
  · intro fuel2 h1 h2
    exact (explore_stable repo maxDepth fuel).1 fuel2 p v h1 h2

/-- Witness for C9 on a concrete two-directory repository: the visited
guard and the depth guard return the empty list, and any two fuel values
above the number of listing keys give the same exploration result. -/
theorem explore_guards_and_terminates_witness :
    exploreRepo [("", RContents.multi [RItem.file "a.js", RItem.dir "src"]),
        ("src", RContents.multi [RItem.file "src/b.ts"])] 5 3 "src" ["src"] =
      ([], ["src"]) ∧
    exploreRepo [("", RContents.multi [RItem.file "a.js", RItem.dir "src"]),
        ("src", RContents.multi [RItem.file "src/b.ts"])] 5 3 "a/b/c/d/e/f" [] =
      ([], []) ∧
    exploreRepo [("", RContents.multi [RItem.file "a.js", RItem.dir "src"]),
        ("src", RContents.multi [RItem.file "src/b.ts"])] 5 3 "" [] =
      exploreRepo [("", RContents.multi [RItem.file "a.js", RItem.dir "src"]),
        ("src", RContents.multi [RItem.file "src/b.ts"])] 5 9 "" [] :=
  ⟨(explore_guards_and_terminates _ 5 3 "src" ["src"]).1 (by decide),
   (explore_guards_and_terminates _ 5 3 "a/b/c/d/e/f" []).2.1 (by decide),
   (explore_guards_and_terminates
      [("", RContents.multi [RItem.file "a.js", RItem.dir "src"]),
       ("src", RContents.multi [RItem.file "src/b.ts"])] 5 3 "" []).2.2 9
     (by decide) (by decide)⟩

end TreePT
